import Mathlib

/-!
Verification of the scene timeline compositor of `src/video_editor.py`.

The embedding below translates the Python source into Lean:

* durations and timestamps (Python floats) become exact rationals `ℚ`;
* pixel buffers become functions from coordinates to RGBA values;
* `moviepy` clip objects become descriptor records carrying the data the
  source reads or writes (start time, duration, loop count, attached audio,
  position function); effect rendering stays descriptive, but the eager
  application of effects by `with_effects` is modelled where it can fail:
  `SlideIn.apply` dispatches its position table over exactly the four
  sides and raises `KeyError` for any other side, which `addSceneChecked`
  makes explicit;
* the file system is abstracted by `Bool`/`Option` fields of the scene
  input stating whether the video path exists and whether an audio path
  was supplied and exists (together with that audio's duration).
-/

namespace VideoEditor

/-! ## Scene sequencer data model (`StorySequencer`, src/video_editor.py) -/

/-- The sound track carried by a scene's main video layer: either the
embedded audio the video file already has, or an attached narration track
of the given duration (`video_clip.with_audio(audio_clip)`). -/
inductive AudioTrack where
  | embedded : AudioTrack
  | attached (duration : ℚ) : AudioTrack
deriving DecidableEq

/-- The inputs of one `StorySequencer.add_scene` call, with the external
file system abstracted: `videoExists` states whether `video_path` exists,
`videoDuration` is the duration of the fitted clip produced by
`resize_and_crop` (which never changes duration), and `audio = some a`
states that `audio_path` was supplied, exists, and has duration `a`. -/
structure SceneInput where
  videoExists : Bool
  videoDuration : ℚ
  title : String
  caption : String
  effectsDuration : ℚ
  textDirection : String
  audio : Option ℚ

/-- One element of the sequencer's `self.clips` list: the freeze-frame
intro, the main video, or the sidebar overlay.  Each records the absolute
start time and duration the source sets on it; the video layer also
records the loop count used by `concatenate_videoclips([clip] * loops)`
and its sound track; the sidebar records its position function. -/
inductive SceneLayer where
  | intro (start duration fadeDur slideDur : ℚ) (slideSide : String) : SceneLayer
  | video (start duration : ℚ) (loops : ℤ) (audio : AudioTrack) : SceneLayer
  | sidebar (start duration : ℚ) (pos : ℚ → ℤ × ℤ) : SceneLayer

/-- The mutable state of a `StorySequencer`: canvas size, the append-only
clip list, and the timeline cursor `self.current_time`. -/
structure SeqState where
  w : ℕ
  h : ℕ
  clips : List SceneLayer
  current_time : ℚ

/-- `StorySequencer.__init__`: empty clip list, cursor `0.0`. -/
def initState (w h : ℕ) : SeqState :=
  ⟨w, h, [], 0⟩

/-- Python `int(q)` for a rational: truncation toward zero. -/
def pyTrunc (q : ℚ) : ℤ :=
  if q < 0 then ⌈q⌉ else ⌊q⌋

/-- `overlap_time`: `slide_duration if not is_first_scene else 0.0`, where
`is_first_scene = (self.current_time == 0.0)`. -/
def overlapTime (st : SeqState) (sc : SceneInput) : ℚ :=
  if st.current_time = 0 then 0 else sc.effectsDuration

/-- `scene_start_time = max(0, self.current_time - overlap_time)`. -/
def sceneStartTime (st : SeqState) (sc : SceneInput) : ℚ :=
  max 0 (st.current_time - overlapTime st sc)

/-- `video_start_time = scene_start_time + intro_duration` (the intro
duration is `effects_duration`). -/
def videoStartTime (st : SeqState) (sc : SceneInput) : ℚ :=
  sceneStartTime st sc + sc.effectsDuration

/-- Duration of the (possibly looped and trimmed) main video clip: when an
audio source exists and `audio_clip.duration > video_clip.duration`, the
video is looped and then cut by `with_duration(audio_clip.duration)`, so
its duration becomes the audio duration; otherwise it keeps its native
duration. -/
def finalVideoDuration (sc : SceneInput) : ℚ :=
  match sc.audio with
  | some a => if sc.videoDuration < a then a else sc.videoDuration
  | none => sc.videoDuration

/-- The loop count `loops = math.ceil(audio_clip.duration / video_clip.duration)`
used by `concatenate_videoclips([video_clip] * loops)`; `1` when no looping
happens (the clip is used once). -/
def videoLoops (sc : SceneInput) : ℤ :=
  match sc.audio with
  | some a => if sc.videoDuration < a then ⌈a / sc.videoDuration⌉ else 1
  | none => 1

/-- The sound track of the main video layer: the source runs
`video_clip = video_clip.with_audio(audio_clip)` whenever an audio source
was supplied and exists (looped or not); otherwise the embedded track is
kept. -/
def videoAudioTrack (sc : SceneInput) : AudioTrack :=
  match sc.audio with
  | some a => AudioTrack.attached a
  | none => AudioTrack.embedded

/-- The freeze-frame intro layer: first frame held for `intro_duration`
starting at `scene_start_time`, with `CrossFadeIn`/`SlideIn` effects of
length `effects_duration` (side = `text_direction`). -/
def introLayer (st : SeqState) (sc : SceneInput) : SceneLayer :=
  SceneLayer.intro (sceneStartTime st sc) sc.effectsDuration
    sc.effectsDuration sc.effectsDuration sc.textDirection

/-- The main video layer appended by `add_scene`. -/
def videoLayer (st : SeqState) (sc : SceneInput) : SceneLayer :=
  SceneLayer.video (videoStartTime st sc) (finalVideoDuration sc)
    (videoLoops sc) (videoAudioTrack sc)

/-- `sidebar_width_target`/`sidebar_height_target` of `add_scene`, then the
composite size `(bg_width, bg_height)` chosen by `create_sidebar_clip`.
`int(x * 0.3)` and `int(x * 1.2)` are modelled as `⌊3x/10⌋` and `⌊6x/5⌋`
(the float products stay within half an ulp of the exact values for
canvas-scale sizes, so the truncations agree). -/
def sidebarSize (st : SeqState) (dir : String) : ℤ × ℤ :=
  let tw : ℤ := if dir = "top" ∨ dir = "bottom" then st.w else ⌊(st.w : ℚ) * 3 / 10⌋
  let th : ℤ := if dir = "top" ∨ dir = "bottom" then ⌊(st.h : ℚ) * 3 / 10⌋ else st.h
  if dir = "left" ∨ dir = "right" then (⌊(tw : ℚ) * 6 / 5⌋, th) else (tw, ⌊(th : ℚ) * 6 / 5⌋)

/-- The `(start_x, final_x, start_y, final_y)` endpoints of the sidebar
slide animation, including the safety fallback `(0, 0, 0, 0)` for a
direction outside `left`/`right`/`top`/`bottom`. -/
def slideEndpoints (st : SeqState) (dir : String) (sbW sbH : ℤ) : ℤ × ℤ × ℤ × ℤ :=
  if dir = "left" then (-sbW, 0, 0, 0)
  else if dir = "right" then ((st.w : ℤ), (st.w : ℤ) - sbW, 0, 0)
  else if dir = "top" then (0, 0, -sbH, 0)
  else if dir = "bottom" then (0, 0, (st.h : ℤ), (st.h : ℤ) - sbH)
  else (0, 0, 0, 0)

/-- The closure `slide_pos(t)`: linear interpolation from the start to the
final offset over the first second, then the docked position. -/
def slidePos (sx fx sy fy : ℤ) (t : ℚ) : ℤ × ℤ :=
  if t < 1 then
    (pyTrunc ((sx : ℚ) + ((fx : ℚ) - (sx : ℚ)) * t),
     pyTrunc ((sy : ℚ) + ((fy : ℚ) - (sy : ℚ)) * t))
  else (fx, fy)

/-- The sidebar layers appended by `add_scene`: one layer when
`title or caption` is truthy (a non-empty string), none otherwise. -/
def sidebarLayers (st : SeqState) (sc : SceneInput) : List SceneLayer :=
  if sc.title = "" ∧ sc.caption = "" then []
  else
    let sz := sidebarSize st sc.textDirection
    let ep := slideEndpoints st sc.textDirection sz.1 sz.2
    [SceneLayer.sidebar (videoStartTime st sc) (finalVideoDuration sc)
      (fun t => slidePos ep.1 ep.2.1 ep.2.2.1 ep.2.2.2 t)]

/-- The state after a `StorySequencer.add_scene` call that runs to
completion: skip (state unchanged) when the video path is missing;
otherwise append the intro, video and optional sidebar layers and advance
the cursor to `video_start_time + video_clip.duration`.  The exception
path of the eager `with_effects` call (an invalid `SlideIn` side with a
positive effects duration raises `KeyError` before anything is appended)
is modelled by `addSceneChecked`, which returns this state exactly when
no exception occurs. -/
def addScene (st : SeqState) (sc : SceneInput) : SeqState :=
  if sc.videoExists then
    { st with
      clips := st.clips ++ [introLayer st sc, videoLayer st sc] ++ sidebarLayers st sc
      current_time := videoStartTime st sc + finalVideoDuration sc }
  else st

/-- The sides `moviepy`'s `SlideIn.apply` accepts: its position table is
keyed by exactly `left`, `right`, `top` and `bottom`; looking up any
other side raises `KeyError`. -/
def validSlideSide (side : String) : Bool :=
  side == "left" || side == "right" || side == "top" || side == "bottom"

/-- `StorySequencer.add_scene` with the exception path made explicit:
when the video exists, `effects_duration > 0` puts a
`vfx.SlideIn(duration, side=text_direction)` into the effect list, and
`intro_bg.with_effects(effects)` (line 311) applies it eagerly —
`SlideIn.apply` raises `KeyError` for a side outside its table, aborting
the call before any layer is appended or the cursor moved.  Otherwise
the call completes with the state `addScene` computes. -/
def addSceneChecked (st : SeqState) (sc : SceneInput) : Except String SeqState :=
  if sc.videoExists = true ∧ 0 < sc.effectsDuration ∧
      validSlideSide sc.textDirection = false then
    Except.error "KeyError"
  else Except.ok (addScene st sc)

/-- The data of the final `CompositeVideoClip` handed to
`write_videofile`: the black full-duration background plus the recorded
layers, at the requested frame rate. -/
structure RenderOutput where
  totalDuration : ℚ
  bgW : ℕ
  bgH : ℕ
  layers : List SceneLayer
  fps : ℕ

/-- `StorySequencer.render`: `none` (print a diagnostic, return, write no
file) when `self.clips` is empty; otherwise the composited output with a
background `ColorClip` of the full timeline duration. -/
def renderSeq (st : SeqState) (fps : ℕ) : Option RenderOutput :=
  if st.clips.isEmpty then none
  else some ⟨st.current_time, st.w, st.h, st.clips, fps⟩

/-- Scene 1 of end-to-end scenario 1: 4-second video, no audio, no text,
`effects_duration = 0.5`. -/
def scenarioScene1 : SceneInput :=
  ⟨true, 4, "", "", 1/2, "left", none⟩

/-- Scene 2 of end-to-end scenario 1: 3-second video, no audio, no text,
`effects_duration = 0.5`. -/
def scenarioScene2 : SceneInput :=
  ⟨true, 3, "", "", 1/2, "left", none⟩

/-- End-to-end scenario 2's scene: 3-second video with a 5-second audio
source, which forces looping. -/
def loopScene : SceneInput :=
  ⟨true, 3, "", "", 1/2, "left", some 5⟩

/-- A scene whose supplied audio (3 s) is shorter than its video (4 s). -/
def shortAudioScene : SceneInput :=
  ⟨true, 4, "", "", 1/2, "left", some 3⟩

/-- A scene with a title but a text direction outside
`left`/`right`/`top`/`bottom`, with the default positive effects
duration. -/
def invalidDirScene : SceneInput :=
  ⟨true, 4, "Title", "", 1/2, "diagonal", none⟩

/-- The same invalid-direction scene with `effects_duration = 0`, so no
`SlideIn` effect is built and the call completes. -/
def invalidDirZeroScene : SceneInput :=
  ⟨true, 4, "Title", "", 0, "diagonal", none⟩

/-! ## Gradient panel (`create_gradient_bar`, src/video_editor.py) -/

/-- An RGBA pixel.  The alpha channel is kept as an exact rational: the
final `astype(np.uint8)` quantisation of the numpy array is not modelled,
so theorems speak about the computed ramp values. -/
structure RGBA where
  r : ℕ
  g : ℕ
  b : ℕ
  a : ℚ
deriving DecidableEq

/-- The clip built by `create_gradient_bar`: either the transparent
`ColorClip` of the degenerate branch (with its size and 4-component
color), or the `ImageClip` over the computed pixel array. -/
inductive GradientClip where
  | colorClip (w h : ℕ) (color : ℕ × ℕ × ℕ × ℕ) : GradientClip
  | imageClip (w h : ℕ) (pixel : ℕ → ℕ → RGBA) : GradientClip

/-- `np.linspace(0, 1, n)` at index `i`: `i / (n - 1)` for `n ≥ 2`, and
`0` for `n ≤ 1` (numpy returns `[0.0]` for a single sample). -/
def linFrac (n i : ℕ) : ℚ :=
  if n ≤ 1 then 0 else (i : ℚ) / ((n : ℚ) - 1)

/-- The alpha ramp of `create_gradient_bar`: `(1 - x) * 255 * max_opacity`
for `left`, `x * 255 * max_opacity` for `right` (the `else` of the
horizontal branch), and the same ramp along `y` in the vertical branch
(`top`, with `bottom` and every other direction in its `else`). -/
def gradAlpha (direction : String) (w h : ℕ) (m : ℚ) (i j : ℕ) : ℚ :=
  if direction = "left" ∨ direction = "right" then
    if direction = "left" then (1 - linFrac w i) * 255 * m else linFrac w i * 255 * m
  else
    if direction = "top" then (1 - linFrac h j) * 255 * m else linFrac h j * 255 * m

/-- `create_gradient_bar(width, height, direction, color, max_opacity)`
(src/video_editor.py lines 43-78): a transparent `ColorClip` of size
`(max(1, w), max(1, h))` when either dimension is `≤ 0`, otherwise an
RGBA buffer with constant color channels and the direction's alpha ramp. -/
def create_gradient_bar (width height : ℤ) (direction : String)
    (color : ℕ × ℕ × ℕ) (max_opacity : ℚ) : GradientClip :=
  if width ≤ 0 ∨ height ≤ 0 then
    GradientClip.colorClip (max 1 width).toNat (max 1 height).toNat (0, 0, 0, 0)
  else
    GradientClip.imageClip width.toNat height.toNat
      (fun i j => ⟨color.1, color.2.1, color.2.2,
        gradAlpha direction width.toNat height.toNat max_opacity i j⟩)

/-- The `(w, h)` size of the produced clip. -/
def GradientClip.size : GradientClip → ℕ × ℕ
  | GradientClip.colorClip w h _ => (w, h)
  | GradientClip.imageClip w h _ => (w, h)

/-- The alpha value of the clip at pixel column `i`, row `j` (a
`ColorClip` has its constant fourth color component everywhere). -/
def GradientClip.alphaAt : GradientClip → ℕ → ℕ → ℚ
  | GradientClip.colorClip _ _ c, _, _ => (c.2.2.2 : ℚ)
  | GradientClip.imageClip _ _ p, i, j => (p i j).a

/-- The RGB value of the clip at pixel column `i`, row `j`. -/
def GradientClip.rgbAt : GradientClip → ℕ → ℕ → ℕ × ℕ × ℕ
  | GradientClip.colorClip _ _ c, _, _ => (c.1, c.2.1, c.2.2.1)
  | GradientClip.imageClip _ _ p, i, j => ((p i j).r, (p i j).g, (p i j).b)

/-! ## Text wrapping (`create_text_clip`, src/video_editor.py lines 88-97)

The wrapping call is Python's `textwrap.fill(text, width=max_chars)` with
default options.  The definitions below follow CPython's `TextWrapper`
for those defaults (`replace_whitespace=True`, `drop_whitespace=True`,
`break_long_words=True`): whitespace characters are replaced by spaces,
the text is split into maximal runs of spaces / non-spaces, and lines are
built greedily — dropping a leading whitespace chunk of every line but
the first, breaking a chunk wider than the whole line, and dropping one
trailing all-whitespace chunk per line.  Tab expansion, non-ASCII
whitespace, and `break_on_hyphens` (which only adds break opportunities
after hyphens) are not modelled. -/

/-- A chunk: a maximal run of spaces or of non-space characters. -/
abbrev Chunk := List Char

/-- The `string.whitespace` characters `textwrap` replaces by spaces. -/
def pySpace (c : Char) : Bool :=
  c = ' ' || c = '\t' || c = '\n' || c = '\x0b' || c = '\x0c' || c = '\r'

/-- `replace_whitespace`: each whitespace character becomes a space. -/
def replaceWhitespace (s : List Char) : List Char :=
  s.map (fun c => if pySpace c then ' ' else c)

/-- A chunk consisting only of spaces (`chunk.strip() == ''` on
whitespace-replaced text; true for the empty chunk). -/
def wsChunk (c : Chunk) : Bool :=
  c.all (fun x => x = ' ')

/-- Split into maximal runs of spaces / non-spaces (the effect of the
word-separator split on hyphen-free text, empty pieces filtered out). -/
def splitChunks : List Char → List Chunk
  | [] => []
  | c :: cs =>
    match splitChunks cs with
    | [] => [[c]]
    | [] :: rest => [c] :: [] :: rest
    | (d :: ds) :: rest =>
      if (c = ' ') ↔ (d = ' ') then (c :: d :: ds) :: rest
      else [c] :: (d :: ds) :: rest

/-- The greedy inner loop of `_wrap_chunks`: move chunks onto the current
line while the accumulated length stays within `width`; returns the taken
chunks, the accumulated length, and the remaining chunks. -/
def greedyTake (width : ℕ) : ℕ → List Chunk → List Chunk × ℕ × List Chunk
  | curLen, [] => ([], curLen, [])
  | curLen, c :: cs =>
    if curLen + c.length ≤ width then
      match greedyTake width (curLen + c.length) cs with
      | (taken, finalLen, rest) => (c :: taken, finalLen, rest)
    else ([], curLen, c :: cs)

/-- `_handle_long_word` with `break_long_words=True`: when the next chunk
is wider than the whole line width, break off the space left on the
current line (at least one character when `width < 1`). -/
def handleLong (width curLen : ℕ) (curLine rest : List Chunk) :
    List Chunk × List Chunk :=
  match rest with
  | [] => (curLine, [])
  | c :: cs =>
    if width < c.length then
      (curLine ++ [c.take (if width < 1 then 1 else width - curLen)],
       c.drop (if width < 1 then 1 else width - curLen) :: cs)
    else (curLine, c :: cs)

/-- Drop a leading whitespace chunk — except at the very beginning of the
text, when no line has been emitted yet. -/
def dropLeadingWs (hasLines : Bool) : List Chunk → List Chunk
  | [] => []
  | c :: cs => if hasLines && wsChunk c then cs else c :: cs

/-- Drop the line's last chunk when it is all whitespace. -/
def dropTrailingWs : List Chunk → List Chunk
  | [] => []
  | [c] => if wsChunk c then [] else [c]
  | c :: c2 :: cs => c :: dropTrailingWs (c2 :: cs)

/-- One iteration of the `while chunks:` loop of `_wrap_chunks`: the
emitted line, if any, and the remaining chunks. -/
def wrapStep (width : ℕ) (hasLines : Bool) (chunks : List Chunk) :
    Option (List Char) × List Chunk :=
  let g := greedyTake width 0 (dropLeadingWs hasLines chunks)
  let hl := handleLong width g.2.1 g.1 g.2.2
  let line := dropTrailingWs hl.1
  (if line.isEmpty then none else some line.flatten, hl.2)

/-- Termination measure for the wrap loop: twice the total character mass
plus the chunk count; every iteration strictly decreases it. -/
def chunksMeasure (chunks : List Chunk) : ℕ :=
  2 * (chunks.map List.length).sum + chunks.length

/-- `_wrap_chunks`, driven by a fuel argument; `pyWrap` supplies the
measure of the initial chunks as fuel, which never runs out. -/
def wrapAux (width : ℕ) : ℕ → Bool → List Chunk → List (List Char)
  | 0, _, _ => []
  | _ + 1, _, [] => []
  | fuel + 1, hasLines, c :: cs =>
    match wrapStep width hasLines (c :: cs) with
    | (none, rest) => wrapAux width fuel hasLines rest
    | (some l, rest) => l :: wrapAux width fuel true rest

/-- `textwrap.wrap(text, width)` under the default options. -/
def pyWrap (width : ℕ) (text : List Char) : List (List Char) :=
  wrapAux width (chunksMeasure (splitChunks (replaceWhitespace text))) false
    (splitChunks (replaceWhitespace text))

/-- `textwrap.fill(text, width)`: the wrapped lines joined with `"\n"`. -/
def pyFill (width : ℕ) (text : List Char) : List Char :=
  List.intercalate ['\n'] (pyWrap width text)

/-- `max_chars_per_line = max(1, int(safe_width_px / (fontsize * 0.5)))`,
modelled as `max 1 (2 * widthPx / fontsize)`; for integer inputs in the
caller's range the float division plus `int()` truncation agrees with
this exact value. -/
def maxCharsPerLine (widthPx fontsize : ℕ) : ℕ :=
  max 1 (2 * widthPx / fontsize)

/-- The wrapping portion of `create_text_clip` (lines 88-97): wrap when
the text exceeds the per-line budget, then append a trailing newline. -/
def wrappedTextOf (text : List Char) (widthPx fontsize : ℕ) : List Char :=
  (if maxCharsPerLine widthPx fontsize < text.length
   then pyFill (maxCharsPerLine widthPx fontsize) text
   else text) ++ ['\n']

end VideoEditor

namespace VideoEditor

/-! ## Theorems about the sequencer -/

/-- C1: for every successful `add_scene` call the sequencer computes
`overlap = 0` iff the cursor is `0` (else `effects_duration`), sets
`scene_start = max(0, current_time - overlap)`,
`video_start = scene_start + effects_duration`, and advances the cursor to
`video_start` plus the final video duration; and in end-to-end scenario 1
(two scenes, no audio, `effects_duration = 0.5`, video durations 4 s and
3 s) the cursor is 4.5 after scene 1 and 7.5 after scene 2. -/
theorem add_scene_cursor_recurrence :
    (∀ (st : SeqState) (sc : SceneInput), sc.videoExists = true →
      overlapTime st sc = (if st.current_time = 0 then 0 else sc.effectsDuration) ∧
      sceneStartTime st sc = max 0 (st.current_time - overlapTime st sc) ∧
      videoStartTime st sc = sceneStartTime st sc + sc.effectsDuration ∧
      (addScene st sc).current_time = videoStartTime st sc + finalVideoDuration sc) ∧
    (addScene (initState 1024 576) scenarioScene1).current_time = 9/2 ∧
    (addScene (addScene (initState 1024 576) scenarioScene1) scenarioScene2).current_time
      = 15/2 := by
  refine ⟨fun st sc h => ⟨rfl, rfl, rfl, ?_⟩, ?_, ?_⟩
  · simp [addScene, h]
  · simp [addScene, scenarioScene1, initState, videoStartTime, sceneStartTime,
      overlapTime, finalVideoDuration]
    norm_num
  · simp only [addScene, scenarioScene1, scenarioScene2, initState, videoStartTime,
      sceneStartTime, overlapTime, finalVideoDuration]
    norm_num

/-- Witness for C1: the general recurrence applied to the concrete first
scenario scene. -/
theorem add_scene_cursor_recurrence_witness :
    (addScene (initState 1024 576) scenarioScene1).current_time
      = videoStartTime (initState 1024 576) scenarioScene1
        + finalVideoDuration scenarioScene1 :=
  (add_scene_cursor_recurrence.1 (initState 1024 576) scenarioScene1 rfl).2.2.2

/-- C4: the cursor starts at `0.0` and, for any state and any scene input
with nonnegative transition duration (the `SceneDescriptor` invariant of
the spec) and positive fitted video duration, an `add_scene` call never
decreases it (skipped scenes leave it unchanged, successful ones advance
it). -/
theorem current_time_monotone :
    (∀ w h : ℕ, (initState w h).current_time = 0) ∧
    (∀ (st : SeqState) (sc : SceneInput), 0 ≤ sc.effectsDuration →
      0 < sc.videoDuration →
      st.current_time ≤ (addScene st sc).current_time) := by
  refine ⟨fun w h => rfl, fun st sc heff hdur => ?_⟩
  by_cases hex : sc.videoExists
  · have hfin : 0 < finalVideoDuration sc := by
      unfold finalVideoDuration
      match h : sc.audio with
      | none => exact hdur
      | some a =>
        by_cases hlt : sc.videoDuration < a
        · simpa [hlt] using lt_trans hdur hlt
        · simpa [hlt] using hdur
    have : (addScene st sc).current_time
        = max 0 (st.current_time - overlapTime st sc) + sc.effectsDuration
          + finalVideoDuration sc := by
      simp [addScene, hex, videoStartTime, sceneStartTime]
    rw [this]
    by_cases h0 : st.current_time = 0
    · linarith [le_max_left (0 : ℚ) (st.current_time - overlapTime st sc)]
    · have hov : overlapTime st sc = sc.effectsDuration := by simp [overlapTime, h0]
      linarith [le_max_right (0 : ℚ) (st.current_time - overlapTime st sc)]
  · simp [addScene, hex]

/-- Witness for C4: a concrete monotone step (first scenario scene from the
initial state, transition duration `0.5 ≥ 0`, video duration `4 > 0`). -/
theorem current_time_monotone_witness :
    (initState 1024 576).current_time
      ≤ (addScene (initState 1024 576) scenarioScene1).current_time :=
  current_time_monotone.2 (initState 1024 576) scenarioScene1
    (by norm_num [scenarioScene1]) (by norm_num [scenarioScene1])

/-- C5: when the video source path does not exist, `add_scene` returns
before any mutation, so the sequencer state (cursor and clip list) is
exactly the state before the call. -/
theorem add_scene_missing_video_noop (st : SeqState) (sc : SceneInput)
    (h : sc.videoExists = false) : addScene st sc = st := by
  simp [addScene, h]

/-- Witness for C5: skipping a concrete scene with a missing video leaves
the concrete initial state unchanged. -/
theorem add_scene_missing_video_noop_witness :
    addScene (initState 1024 576) ⟨false, 4, "t", "c", 1/2, "left", none⟩
      = initState 1024 576 :=
  add_scene_missing_video_noop (initState 1024 576) _ rfl

/-- C9: rendering a sequencer to which no layer was ever appended produces
no output (`none`: the source prints a diagnostic and returns without
writing a file or raising). -/
theorem render_empty_noop (st : SeqState) (fps : ℕ) (h : st.clips = []) :
    renderSeq st fps = none := by
  simp [renderSeq, h]

/-- Witness for C9: rendering the freshly initialised sequencer yields no
output. -/
theorem render_empty_noop_witness :
    renderSeq (initState 1024 576) 24 = none :=
  render_empty_noop (initState 1024 576) 24 rfl

/-- C2: when an existing audio source's duration `a` exceeds the fitted
video's duration `v`, the video is looped with `ceil(a / v)` whole copies
(`concatenate_videoclips([video_clip] * loops)`) and then trimmed
(`with_duration`) so the appended video layer's duration is exactly `a`,
not `ceil(a / v) * v`. -/
theorem audio_loop_trim (st : SeqState) (sc : SceneInput) (a : ℚ)
    (hex : sc.videoExists = true) (ha : sc.audio = some a)
    (hlt : sc.videoDuration < a) (_hpos : 0 < sc.videoDuration) :
    videoLoops sc = ⌈a / sc.videoDuration⌉ ∧
    finalVideoDuration sc = a ∧
    videoLayer st sc = SceneLayer.video (videoStartTime st sc) a
      ⌈a / sc.videoDuration⌉ (AudioTrack.attached a) ∧
    (addScene st sc).clips
      = st.clips ++ [introLayer st sc, videoLayer st sc] ++ sidebarLayers st sc := by
  refine ⟨?_, ?_, ?_, ?_⟩
  · simp [videoLoops, ha, hlt]
  · simp [finalVideoDuration, ha, hlt]
  · simp [videoLayer, finalVideoDuration, videoLoops, videoAudioTrack, ha, hlt]
  · simp [addScene, hex]

/-- Witness for C2: end-to-end scenario 2's scene (video 3 s, audio 5 s)
loops `ceil(5/3) = 2` copies and carries final duration exactly 5 s
(not `2 * 3 = 6`). -/
theorem audio_loop_trim_witness :
    videoLoops loopScene = 2 ∧ finalVideoDuration loopScene = 5 := by
  have h := audio_loop_trim (initState 1024 576) loopScene 5 rfl rfl
    (by norm_num [loopScene]) (by norm_num [loopScene])
  refine ⟨?_, h.2.1⟩
  rw [h.1]
  norm_num [loopScene]
  rw [show (5 : ℚ) / 3 = 5 / 3 from rfl]
  norm_num [Int.ceil_eq_iff]

/-- C3 (amended): when no audio source is supplied, or the supplied
audio's duration is at most the fitted video's duration, the video layer
keeps its native duration (no looping, loop count 1); the embedded sound
track is kept only in the no-audio case — a supplied shorter-or-equal
audio source still replaces the video's sound track
(`with_audio` runs whenever the audio file exists). -/
theorem native_duration_audio (st : SeqState) (sc : SceneInput)
    (hex : sc.videoExists = true) :
    (sc.audio = none →
      videoLayer st sc = SceneLayer.video (videoStartTime st sc) sc.videoDuration 1
        AudioTrack.embedded) ∧
    (∀ a, sc.audio = some a → a ≤ sc.videoDuration →
      videoLayer st sc = SceneLayer.video (videoStartTime st sc) sc.videoDuration 1
        (AudioTrack.attached a)) ∧
    (addScene st sc).clips
      = st.clips ++ [introLayer st sc, videoLayer st sc] ++ sidebarLayers st sc := by
  refine ⟨fun h => ?_, fun a h hle => ?_, ?_⟩
  · simp [videoLayer, finalVideoDuration, videoLoops, videoAudioTrack, h]
  · simp [videoLayer, finalVideoDuration, videoLoops, videoAudioTrack, h, not_lt.mpr hle]
  · simp [addScene, hex]

/-- Counterexample for C3 as stated: with a 4-second video and an existing
3-second audio source (audio ≤ video), the video layer's sound track is
the attached audio, not the unchanged embedded one. -/
theorem native_duration_audio_counterexample :
    shortAudioScene.audio = some 3 ∧ (3 : ℚ) ≤ shortAudioScene.videoDuration ∧
    videoAudioTrack shortAudioScene ≠ AudioTrack.embedded := by
  refine ⟨rfl, by norm_num [shortAudioScene], ?_⟩
  simp [videoAudioTrack, shortAudioScene]

/-- Witness for C3 (amended): the concrete short-audio scene keeps its
native 4-second duration and loop count 1, with the 3-second audio
attached. -/
theorem native_duration_audio_witness :
    videoLayer (initState 1024 576) shortAudioScene
      = SceneLayer.video (videoStartTime (initState 1024 576) shortAudioScene)
          shortAudioScene.videoDuration 1 (AudioTrack.attached 3) :=
  (native_duration_audio (initState 1024 576) shortAudioScene rfl).2.1 3 rfl
    (by norm_num [shortAudioScene])

/-- C10 (amended): with a non-empty title or caption but a text direction
outside `left`/`right`/`top`/`bottom`, the call does **not** succeed when
`effects_duration > 0`: `with_effects` eagerly runs `SlideIn.apply`,
whose position table has only the four valid sides, so the call raises
`KeyError` before appending any layer or moving the cursor.  Only when
`effects_duration ≤ 0` (no `SlideIn` is built) does the call complete,
and then it appends a sidebar layer whose slide endpoints fall back to
`(0, 0, 0, 0)`, so its position function returns `(0, 0)` at every
elapsed time (static at the canvas origin, no slide). -/
theorem invalid_direction_outcome (st : SeqState) (sc : SceneInput)
    (hex : sc.videoExists = true)
    (hdir : ¬(sc.textDirection = "left" ∨ sc.textDirection = "right" ∨
      sc.textDirection = "top" ∨ sc.textDirection = "bottom"))
    (htext : ¬(sc.title = "" ∧ sc.caption = "")) :
    (0 < sc.effectsDuration → addSceneChecked st sc = Except.error "KeyError") ∧
    (sc.effectsDuration ≤ 0 →
      addSceneChecked st sc = Except.ok (addScene st sc) ∧
      (addScene st sc).clips
        = st.clips ++ [introLayer st sc, videoLayer st sc,
            SceneLayer.sidebar (videoStartTime st sc) (finalVideoDuration sc)
              (fun t => slidePos 0 0 0 0 t)] ∧
      (∀ t : ℚ, slidePos 0 0 0 0 t = (0, 0))) := by
  have h1 : ¬sc.textDirection = "left" := fun h => hdir (Or.inl h)
  have h2 : ¬sc.textDirection = "right" := fun h => hdir (Or.inr (Or.inl h))
  have h3 : ¬sc.textDirection = "top" := fun h => hdir (Or.inr (Or.inr (Or.inl h)))
  have h4 : ¬sc.textDirection = "bottom" := fun h => hdir (Or.inr (Or.inr (Or.inr h)))
  have hval : validSlideSide sc.textDirection = false := by
    rw [validSlideSide]
    simp only [Bool.or_eq_false_iff, beq_eq_false_iff_ne, ne_eq]
    exact ⟨⟨⟨h1, h2⟩, h3⟩, h4⟩
  have hsb : sidebarLayers st sc
      = [SceneLayer.sidebar (videoStartTime st sc) (finalVideoDuration sc)
          (fun t => slidePos 0 0 0 0 t)] := by
    simp [sidebarLayers, htext, slideEndpoints, h1, h2, h3, h4]
  constructor
  · intro heff
    rw [addSceneChecked, if_pos ⟨hex, heff, hval⟩]
  · intro hle
    refine ⟨?_, ?_, fun t => ?_⟩
    · rw [addSceneChecked, if_neg (fun hcon => absurd hcon.2.1 (not_lt.mpr hle))]
    · simp [addScene, hex, hsb]
    · by_cases ht : t < 1
      · simp [slidePos, ht, pyTrunc]
      · simp [slidePos, ht]

/-- Counterexample for C10 as stated: the concrete scene with title
"Title", direction "diagonal" and the default `effects_duration = 0.5`
satisfies the claim's premises, yet the call raises `KeyError` (moviepy's
`SlideIn.apply` position table has no entry for "diagonal") instead of
succeeding and appending a sidebar layer. -/
theorem invalid_direction_counterexample :
    invalidDirScene.title ≠ "" ∧
    ¬(invalidDirScene.textDirection = "left" ∨ invalidDirScene.textDirection = "right" ∨
      invalidDirScene.textDirection = "top" ∨ invalidDirScene.textDirection = "bottom") ∧
    0 < invalidDirScene.effectsDuration ∧
    addSceneChecked (initState 1024 576) invalidDirScene = Except.error "KeyError" := by
  refine ⟨by decide, by decide, by norm_num [invalidDirScene], ?_⟩
  rw [addSceneChecked, if_pos ⟨rfl, by norm_num [invalidDirScene], by decide⟩]

/-- Witness for C10 (amended): the default-duration invalid-direction
scene errors, while its zero-duration variant completes, and the fallback
position function is the origin at time 0.3. -/
theorem invalid_direction_outcome_witness :
    addSceneChecked (initState 1024 576) invalidDirScene = Except.error "KeyError" ∧
    addSceneChecked (initState 1024 576) invalidDirZeroScene
      = Except.ok (addScene (initState 1024 576) invalidDirZeroScene) ∧
    slidePos 0 0 0 0 (3/10) = (0, 0) := by
  have ha := invalid_direction_outcome (initState 1024 576) invalidDirScene rfl
    (by decide) (by decide)
  have hb := invalid_direction_outcome (initState 1024 576) invalidDirZeroScene rfl
    (by decide) (by decide)
  exact ⟨ha.1 (by norm_num [invalidDirScene]),
    (hb.2 (by norm_num [invalidDirZeroScene])).1,
    (hb.2 (by norm_num [invalidDirZeroScene])).2.2 (3/10)⟩

/-! ### Gradient panel theorems -/

theorem gradAlpha_left (w h : ℕ) (m : ℚ) (i j : ℕ) :
    gradAlpha "left" w h m i j = (1 - linFrac w i) * 255 * m := by
  unfold gradAlpha
  rw [if_pos (Or.inl rfl), if_pos rfl]

theorem gradAlpha_right (w h : ℕ) (m : ℚ) (i j : ℕ) :
    gradAlpha "right" w h m i j = linFrac w i * 255 * m := by
  unfold gradAlpha
  rw [if_pos (Or.inr rfl), if_neg (by decide)]

theorem gradAlpha_top (w h : ℕ) (m : ℚ) (i j : ℕ) :
    gradAlpha "top" w h m i j = (1 - linFrac h j) * 255 * m := by
  unfold gradAlpha
  rw [if_neg (by decide), if_pos rfl]

theorem gradAlpha_bottom (w h : ℕ) (m : ℚ) (i j : ℕ) :
    gradAlpha "bottom" w h m i j = linFrac h j * 255 * m := by
  unfold gradAlpha
  rw [if_neg (by decide), if_neg (by decide)]

theorem linFrac_zero (n : ℕ) : linFrac n 0 = 0 := by
  unfold linFrac
  split <;> simp

theorem linFrac_mono (n : ℕ) {i i' : ℕ} (h : i ≤ i') : linFrac n i ≤ linFrac n i' := by
  unfold linFrac
  split
  · exact le_rfl
  · rename_i hn
    have hn1 : 1 < n := Nat.lt_of_not_le hn
    have hd : (0 : ℚ) < (n : ℚ) - 1 := by
      have : (1 : ℚ) < (n : ℚ) := by exact_mod_cast hn1
      linarith
    have hcast : (i : ℚ) ≤ (i' : ℚ) := by exact_mod_cast h
    exact (div_le_div_iff_of_pos_right hd).mpr hcast

theorem linFrac_last {n : ℕ} (hn : 2 ≤ n) : linFrac n (n - 1) = 1 := by
  unfold linFrac
  rw [if_neg (by omega)]
  have hc : ((n - 1 : ℕ) : ℚ) = (n : ℚ) - 1 := by
    push_cast [Nat.cast_sub (by omega : 1 ≤ n)]
    ring
  rw [hc]
  have hd : ((n : ℚ) - 1) ≠ 0 := by
    have : (2 : ℚ) ≤ (n : ℚ) := by exact_mod_cast hn
    intro hcon
    linarith
  exact div_self hd

theorem create_gradient_bar_pos (width height : ℤ) (direction : String)
    (color : ℕ × ℕ × ℕ) (m : ℚ) (hw : 1 ≤ width) (hh : 1 ≤ height) :
    create_gradient_bar width height direction color m
      = GradientClip.imageClip width.toNat height.toNat
          (fun i j => ⟨color.1, color.2.1, color.2.2,
            gradAlpha direction width.toNat height.toNat m i j⟩) := by
  have hcond : ¬(width ≤ 0 ∨ height ≤ 0) := by
    push_neg
    exact ⟨by linarith, by linarith⟩
  simp [create_gradient_bar, hcond]

/-- C7 (amended): for a requested size with `width ≤ 0` or `height ≤ 0`,
`create_gradient_bar` returns a fully transparent `ColorClip` (color
`(0,0,0,0)`) of size `(max(1, width), max(1, height))` instead of failing
— a 1×1 buffer only when both dimensions are degenerate. -/
theorem gradient_degenerate (width height : ℤ) (direction : String)
    (color : ℕ × ℕ × ℕ) (m : ℚ) (h : width ≤ 0 ∨ height ≤ 0) :
    create_gradient_bar width height direction color m
      = GradientClip.colorClip (max 1 width).toNat (max 1 height).toNat (0, 0, 0, 0) := by
  simp [create_gradient_bar, h]

/-- Counterexample for C7 as stated: for width 0 and height 5 the returned
transparent buffer has size `(1, 5)`, not the claimed `1×1`. -/
theorem gradient_degenerate_counterexample :
    ((0 : ℤ) ≤ 0 ∨ (5 : ℤ) ≤ 0) ∧
    (create_gradient_bar 0 5 "left" (0, 0, 0) (4/5)).size = (1, 5) ∧
    ((1, 5) : ℕ × ℕ) ≠ (1, 1) := by
  refine ⟨Or.inl le_rfl, ?_, by decide⟩
  simp [create_gradient_bar, GradientClip.size]

/-- Witness for C7 (amended): the degenerate call at width 0, height 5. -/
theorem gradient_degenerate_witness :
    create_gradient_bar 0 5 "left" (0, 0, 0) (4/5)
      = GradientClip.colorClip (max 1 (0 : ℤ)).toNat (max 1 (5 : ℤ)).toNat (0, 0, 0, 0) :=
  gradient_degenerate 0 5 "left" (0, 0, 0) (4/5) (Or.inl le_rfl)

/-- C8 (amended): for positive sizes and `max_opacity = m ∈ [0,1]`, the
`left` panel's alpha is `(1 - rampFraction) * 255 * m`, never increasing
in the pixel column; when the width is at least 2 it reaches `255 * m` at
the left edge and `0` at the right edge, and the `right` panel mirrors the
`left` one horizontally; `top`/`bottom` apply the same ramp along the
vertical axis (mirroring each other for heights at least 2); the RGB
channels equal the base color at every pixel for every direction.  (For
width 1 the single `left` column carries alpha `255 * m`, so the claimed
edge values and mirror relation are restricted to sizes ≥ 2.) -/
theorem gradient_ramp (width height : ℤ) (color : ℕ × ℕ × ℕ) (m : ℚ)
    (hw : 1 ≤ width) (hh : 1 ≤ height) (hm0 : 0 ≤ m) (_hm1 : m ≤ 1) :
    (∀ i j : ℕ, (create_gradient_bar width height "left" color m).alphaAt i j
        = (1 - linFrac width.toNat i) * 255 * m) ∧
    (∀ i i' j : ℕ, i ≤ i' →
      (create_gradient_bar width height "left" color m).alphaAt i' j
        ≤ (create_gradient_bar width height "left" color m).alphaAt i j) ∧
    (2 ≤ width → ∀ j : ℕ,
      (create_gradient_bar width height "left" color m).alphaAt 0 j = 255 * m ∧
      (create_gradient_bar width height "left" color m).alphaAt (width.toNat - 1) j = 0) ∧
    (2 ≤ width → ∀ i j : ℕ, i < width.toNat →
      (create_gradient_bar width height "right" color m).alphaAt i j
        = (create_gradient_bar width height "left" color m).alphaAt (width.toNat - 1 - i) j) ∧
    (∀ i j : ℕ, (create_gradient_bar width height "top" color m).alphaAt i j
        = (1 - linFrac height.toNat j) * 255 * m) ∧
    (∀ i j : ℕ, (create_gradient_bar width height "bottom" color m).alphaAt i j
        = linFrac height.toNat j * 255 * m) ∧
    (2 ≤ height → ∀ i j : ℕ, j < height.toNat →
      (create_gradient_bar width height "bottom" color m).alphaAt i j
        = (create_gradient_bar width height "top" color m).alphaAt i (height.toNat - 1 - j)) ∧
    (∀ (direction : String) (i j : ℕ),
      (create_gradient_bar width height direction color m).rgbAt i j = color) := by
  have key : ∀ direction : String,
      create_gradient_bar width height direction color m
        = GradientClip.imageClip width.toNat height.toNat
            (fun i j => ⟨color.1, color.2.1, color.2.2,
              gradAlpha direction width.toNat height.toNat m i j⟩) :=
    fun direction => create_gradient_bar_pos width height direction color m hw hh
  have halpha : ∀ (direction : String) (i j : ℕ),
      (create_gradient_bar width height direction color m).alphaAt i j
        = gradAlpha direction width.toNat height.toNat m i j := by
    intro direction i j
    rw [key direction]
    rfl
  have hmirror : ∀ n i : ℕ, 2 ≤ n → i < n →
      linFrac n i = 1 - linFrac n (n - 1 - i) := by
    intro n i hn hi
    unfold linFrac
    rw [if_neg (by omega), if_neg (by omega)]
    have hd : ((n : ℚ) - 1) ≠ 0 := by
      have : (2 : ℚ) ≤ (n : ℚ) := by exact_mod_cast hn
      intro hcon
      linarith
    have hc : ((n - 1 - i : ℕ) : ℚ) = (n : ℚ) - 1 - (i : ℚ) := by
      have h1 : i ≤ n - 1 := by omega
      have h2 : 1 ≤ n := by omega
      push_cast [Nat.cast_sub h1, Nat.cast_sub h2]
      ring
    rw [hc]
    field_simp
  refine ⟨?_, ?_, ?_, ?_, ?_, ?_, ?_, ?_⟩
  · intro i j
    rw [halpha, gradAlpha_left]
  · intro i i' j hii
    rw [halpha, halpha, gradAlpha_left, gradAlpha_left]
    have hf := linFrac_mono width.toNat hii
    have h1 : (1 - linFrac width.toNat i') * 255 ≤ (1 - linFrac width.toNat i) * 255 := by
      have : 1 - linFrac width.toNat i' ≤ 1 - linFrac width.toNat i := by linarith
      linarith
    exact mul_le_mul_of_nonneg_right h1 hm0
  · intro h2w j
    have hn : 2 ≤ width.toNat := by omega
    constructor
    · rw [halpha, gradAlpha_left, linFrac_zero]
      ring
    · rw [halpha, gradAlpha_left, linFrac_last hn]
      ring
  · intro h2w i j hi
    have hn : 2 ≤ width.toNat := by omega
    rw [halpha, halpha, gradAlpha_right, gradAlpha_left, hmirror width.toNat i hn hi]
  · intro i j
    rw [halpha, gradAlpha_top]
  · intro i j
    rw [halpha, gradAlpha_bottom]
  · intro h2h i j hj
    have hn : 2 ≤ height.toNat := by omega
    rw [halpha, halpha, gradAlpha_bottom, gradAlpha_top, hmirror height.toNat j hn hj]
  · intro direction i j
    rw [key direction]
    show (color.1, color.2.1, color.2.2) = color
    simp

/-- Counterexample for C8 as stated: at width 1 (a positive width), height
1, `max_opacity = 1`, the right edge is the pixel `x = width - 1 = 0`, but
its alpha is `255`, not the claimed `0`. -/
theorem gradient_ramp_counterexample :
    (create_gradient_bar 1 1 "left" (0, 0, 0) 1).alphaAt ((1 : ℤ).toNat - 1) 0 = 255 ∧
    (255 : ℚ) ≠ 0 := by
  constructor
  · rw [create_gradient_bar_pos 1 1 "left" (0, 0, 0) 1 le_rfl le_rfl]
    show gradAlpha "left" (1 : ℤ).toNat (1 : ℤ).toNat 1 ((1 : ℤ).toNat - 1) 0 = 255
    rw [gradAlpha_left]
    norm_num [linFrac]
  · norm_num

/-- Witness for C8 (amended): the 3×2 left panel at opacity 1/2 has alpha
`255/2` at the left edge and `0` at the right edge. -/
theorem gradient_ramp_witness :
    (create_gradient_bar 3 2 "left" (10, 20, 30) (1/2)).alphaAt 0 0 = 255 * (1/2) ∧
    (create_gradient_bar 3 2 "left" (10, 20, 30) (1/2)).alphaAt ((3 : ℤ).toNat - 1) 0 = 0 :=
  (gradient_ramp 3 2 (10, 20, 30) (1/2) (by norm_num) (by norm_num) (by norm_num)
    (by norm_num)).2.2.1 (by norm_num) 0

/-! ### Text wrapping: chunk-splitting lemmas -/

theorem splitChunks_cons_nil (c : Char) (cs : List Char) (h : splitChunks cs = []) :
    splitChunks (c :: cs) = [[c]] := by
  rw [splitChunks, h]

theorem splitChunks_cons_cons (c : Char) (cs : List Char) (d0 : Char) (ds : List Char)
    (rest : List Chunk) (h : splitChunks cs = (d0 :: ds) :: rest) :
    splitChunks (c :: cs)
      = if (c = ' ') ↔ (d0 = ' ') then (c :: d0 :: ds) :: rest
        else [c] :: (d0 :: ds) :: rest := by
  rw [splitChunks, h]

theorem splitChunks_ne_nil (l : List Char) : ∀ ch ∈ splitChunks l, ch ≠ [] := by
  induction l with
  | nil =>
    intro ch h
    simp [splitChunks] at h
  | cons c cs ih =>
    intro ch hch
    rcases h : splitChunks cs with _ | ⟨d, rest⟩
    · rw [splitChunks_cons_nil c cs h] at hch
      simp at hch
      simp [hch]
    · rcases d with _ | ⟨d0, ds⟩
      · exact absurd rfl (ih [] (by rw [h]; exact List.mem_cons_self _ _))
      · rw [splitChunks_cons_cons c cs d0 ds rest h] at hch
        split_ifs at hch with hb
        · rcases List.mem_cons.mp hch with rfl | hmem
          · simp
          · exact ih ch (by rw [h]; exact List.mem_cons_of_mem _ hmem)
        · rcases List.mem_cons.mp hch with rfl | hmem
          · simp
          · exact ih ch (by rw [h]; exact hmem)

theorem splitChunks_flatten (l : List Char) : (splitChunks l).flatten = l := by
  induction l with
  | nil => rfl
  | cons c cs ih =>
    rcases h : splitChunks cs with _ | ⟨d, rest⟩
    · rw [h] at ih
      rw [splitChunks_cons_nil c cs h]
      simp only [List.flatten_nil] at ih
      simp [ih.symm]
    · rcases d with _ | ⟨d0, ds⟩
      · exact absurd rfl (splitChunks_ne_nil cs [] (by rw [h]; exact List.mem_cons_self _ _))
      · rw [h] at ih
        rw [splitChunks_cons_cons c cs d0 ds rest h]
        split_ifs with hb
        · simp only [List.flatten_cons] at ih ⊢
          simp [ih]
        · simp only [List.flatten_cons] at ih ⊢
          simp [ih]

theorem splitChunks_homog (l : List Char) :
    ∀ ch ∈ splitChunks l, (∀ a ∈ ch, a = ' ') ∨ (∀ a ∈ ch, a ≠ ' ') := by
  induction l with
  | nil =>
    intro ch h
    simp [splitChunks] at h
  | cons c cs ih =>
    intro ch hch
    rcases h : splitChunks cs with _ | ⟨d, rest⟩
    · rw [splitChunks_cons_nil c cs h] at hch
      simp at hch
      subst hch
      by_cases hc : c = ' '
      · exact Or.inl (by simp [hc])
      · exact Or.inr (by simp [hc])
    · rcases d with _ | ⟨d0, ds⟩
      · exact absurd rfl (splitChunks_ne_nil cs [] (by rw [h]; exact List.mem_cons_self _ _))
      · rw [splitChunks_cons_cons c cs d0 ds rest h] at hch
        split_ifs at hch with hb
        · rcases List.mem_cons.mp hch with rfl | hmem
          · have hd := ih (d0 :: ds) (by rw [h]; exact List.mem_cons_self _ _)
            rcases hd with hall | hnone
            · refine Or.inl ?_
              intro a ha
              rcases List.mem_cons.mp ha with rfl | ha2
              · exact hb.mpr (hall d0 (List.mem_cons_self _ _))
              · exact hall a ha2
            · refine Or.inr ?_
              intro a ha
              rcases List.mem_cons.mp ha with rfl | ha2
              · exact fun hx => hnone d0 (List.mem_cons_self _ _) (hb.mp hx)
              · exact hnone a ha2
          · exact ih ch (by rw [h]; exact List.mem_cons_of_mem _ hmem)
        · rcases List.mem_cons.mp hch with rfl | hmem
          · by_cases hc : c = ' '
            · exact Or.inl (by simp [hc])
            · exact Or.inr (by simp [hc])
          · exact ih ch (by rw [h]; exact hmem)

theorem splitChunks_cons (c : Char) (cs : List Char) :
    ∃ t rest, splitChunks (c :: cs) = (c :: t) :: rest := by
  rcases h : splitChunks cs with _ | ⟨d, rest⟩
  · exact ⟨[], [], splitChunks_cons_nil c cs h⟩
  · rcases d with _ | ⟨d0, ds⟩
    · exact absurd rfl (splitChunks_ne_nil cs [] (by rw [h]; exact List.mem_cons_self _ _))
    · by_cases hb : (c = ' ') ↔ (d0 = ' ')
      · exact ⟨d0 :: ds, rest, by rw [splitChunks_cons_cons c cs d0 ds rest h]; simp [hb]⟩
      · exact ⟨[], (d0 :: ds) :: rest, by rw [splitChunks_cons_cons c cs d0 ds rest h]; simp [hb]⟩

theorem splitChunks_getLast :
    ∀ (l : List Char) (x : Char), l.getLast? = some x →
      ∃ chs ch, splitChunks l = chs ++ [ch] ∧ x ∈ ch
  | [], x, hx => by simp at hx
  | [c], x, hx => by
    have hcx : c = x := by simpa using hx
    subst hcx
    exact ⟨[], [c], by rw [splitChunks]; rfl, List.mem_singleton.mpr rfl⟩
  | c :: c2 :: cs2, x, hx => by
    have hx2 : (c2 :: cs2).getLast? = some x := by
      rw [List.getLast?_cons_cons] at hx
      exact hx
    obtain ⟨chs, ch, hsc, hxch⟩ := splitChunks_getLast (c2 :: cs2) x hx2
    have hchne : ch ≠ [] := splitChunks_ne_nil _ ch (by rw [hsc]; simp)
    rcases chs with _ | ⟨e, es⟩
    · rcases ch with _ | ⟨h0, hs⟩
      · exact absurd rfl hchne
      · simp only [List.nil_append] at hsc
        by_cases hb : (c = ' ') ↔ (h0 = ' ')
        · refine ⟨[], c :: h0 :: hs, ?_, List.mem_cons_of_mem _ hxch⟩
          rw [splitChunks_cons_cons c (c2 :: cs2) h0 hs [] hsc]
          simp [hb]
        · refine ⟨[[c]], h0 :: hs, ?_, hxch⟩
          rw [splitChunks_cons_cons c (c2 :: cs2) h0 hs [] hsc]
          simp [hb]
    · have hene : e ≠ [] := splitChunks_ne_nil _ e (by rw [hsc]; simp)
      rcases e with _ | ⟨e0, es0⟩
      · exact absurd rfl hene
      · by_cases hb : (c = ' ') ↔ (e0 = ' ')
        · refine ⟨(c :: e0 :: es0) :: es, ch, ?_, hxch⟩
          rw [splitChunks_cons_cons c (c2 :: cs2) e0 es0 (es ++ [ch]) (by simpa using hsc)]
          simp [hb]
        · refine ⟨[c] :: (e0 :: es0) :: es, ch, ?_, hxch⟩
          rw [splitChunks_cons_cons c (c2 :: cs2) e0 es0 (es ++ [ch]) (by simpa using hsc)]
          simp [hb]

/-! ### Text wrapping: greedy-take, drop and measure lemmas -/

theorem greedyTake_cons_fit (width curLen : ℕ) (c : Chunk) (cs : List Chunk)
    (h : curLen + c.length ≤ width) :
    greedyTake width curLen (c :: cs)
      = ((greedyTake width (curLen + c.length) cs).1.cons c,
         (greedyTake width (curLen + c.length) cs).2.1,
         (greedyTake width (curLen + c.length) cs).2.2) := by
  rw [greedyTake, if_pos h]

theorem greedyTake_cons_stop (width curLen : ℕ) (c : Chunk) (cs : List Chunk)
    (h : ¬curLen + c.length ≤ width) :
    greedyTake width curLen (c :: cs) = ([], curLen, c :: cs) := by
  rw [greedyTake, if_neg h]

theorem greedyTake_append (width : ℕ) (chunks : List Chunk) :
    ∀ curLen : ℕ,
      (greedyTake width curLen chunks).1 ++ (greedyTake width curLen chunks).2.2
        = chunks := by
  induction chunks with
  | nil => intro curLen; rfl
  | cons c cs ih =>
    intro curLen
    by_cases h : curLen + c.length ≤ width
    · rw [greedyTake_cons_fit width curLen c cs h]
      have := ih (curLen + c.length)
      simpa using this
    · rw [greedyTake_cons_stop width curLen c cs h]
      rfl

theorem greedyTake_len (width : ℕ) (chunks : List Chunk) :
    ∀ curLen : ℕ,
      (greedyTake width curLen chunks).2.1
        = curLen + (((greedyTake width curLen chunks).1).map List.length).sum := by
  induction chunks with
  | nil => intro curLen; simp [greedyTake]
  | cons c cs ih =>
    intro curLen
    by_cases h : curLen + c.length ≤ width
    · rw [greedyTake_cons_fit width curLen c cs h]
      have := ih (curLen + c.length)
      simp only [List.cons_append, List.map_cons, List.sum_cons]
      simp only [this]
      omega
    · rw [greedyTake_cons_stop width curLen c cs h]
      simp

theorem greedyTake_le (width : ℕ) (chunks : List Chunk) :
    ∀ curLen : ℕ, curLen ≤ width → (greedyTake width curLen chunks).2.1 ≤ width := by
  induction chunks with
  | nil => intro curLen h; simpa [greedyTake] using h
  | cons c cs ih =>
    intro curLen h
    by_cases hf : curLen + c.length ≤ width
    · rw [greedyTake_cons_fit width curLen c cs hf]
      exact ih (curLen + c.length) hf
    · rw [greedyTake_cons_stop width curLen c cs hf]
      exact h

theorem greedyTake_nil_rest (width curLen : ℕ) (chunks : List Chunk)
    (h : (greedyTake width curLen chunks).1 = []) :
    (greedyTake width curLen chunks).2.2 = chunks ∧
    (greedyTake width curLen chunks).2.1 = curLen := by
  cases chunks with
  | nil => exact ⟨rfl, rfl⟩
  | cons c cs =>
    by_cases hf : curLen + c.length ≤ width
    · rw [greedyTake_cons_fit width curLen c cs hf] at h
      simp at h
    · rw [greedyTake_cons_stop width curLen c cs hf]
      exact ⟨rfl, rfl⟩

theorem greedyTake_nil_head (width curLen : ℕ) (c : Chunk) (cs : List Chunk)
    (h : (greedyTake width curLen (c :: cs)).1 = []) : width < curLen + c.length := by
  by_contra hcon
  rw [greedyTake_cons_fit width curLen c cs (by omega)] at h
  simp at h

theorem dropTrailingWs_eq_nil :
    ∀ l : List Chunk, dropTrailingWs l = [] →
      l = [] ∨ ∃ c, l = [c] ∧ wsChunk c = true
  | [], _ => Or.inl rfl
  | [c], h => by
    rw [dropTrailingWs] at h
    split_ifs at h with hw
    exact Or.inr ⟨c, rfl, hw⟩
  | c :: c2 :: cs, h => by
    rw [dropTrailingWs] at h
    simp at h

theorem dropTrailingWs_mem :
    ∀ (l : List Chunk) (x : Chunk), x ∈ l → wsChunk x = false → x ∈ dropTrailingWs l
  | [], x, hx, _ => absurd hx (List.not_mem_nil x)
  | [c], x, hx, hw => by
    have hcx : x = c := List.mem_singleton.mp hx
    subst hcx
    rw [dropTrailingWs, if_neg (by simp [hw])]
    exact List.mem_singleton.mpr rfl
  | c :: c2 :: cs, x, hx, hw => by
    rw [dropTrailingWs]
    rcases List.mem_cons.mp hx with rfl | hx2
    · exact List.mem_cons_self _ _
    · exact List.mem_cons_of_mem _ (dropTrailingWs_mem (c2 :: cs) x hx2 hw)

theorem dropTrailingWs_sum_le :
    ∀ l : List Chunk,
      ((dropTrailingWs l).map List.length).sum ≤ (l.map List.length).sum
  | [] => le_rfl
  | [c] => by
    rw [dropTrailingWs]
    split_ifs <;> simp
  | c :: c2 :: cs => by
    rw [dropTrailingWs]
    simp only [List.map_cons, List.sum_cons]
    exact Nat.add_le_add_left (dropTrailingWs_sum_le (c2 :: cs)) _

theorem dropLeadingWs_false (l : List Chunk) : dropLeadingWs false l = l := by
  cases l with
  | nil => rfl
  | cons c cs => rw [dropLeadingWs]; simp

theorem dropLeadingWs_mem (hasLines : Bool) (l : List Chunk) (x : Chunk)
    (hx : x ∈ l) (hw : wsChunk x = false) : x ∈ dropLeadingWs hasLines l := by
  cases l with
  | nil => simp at hx
  | cons c cs =>
    rw [dropLeadingWs]
    split_ifs with hcond
    · rcases List.mem_cons.mp hx with rfl | hx2
      · rw [(Bool.and_eq_true _ _).mp hcond |>.2] at hw
        simp at hw
      · exact hx2
    · exact hx

theorem chunksMeasure_append (a b : List Chunk) :
    chunksMeasure (a ++ b) = chunksMeasure a + chunksMeasure b := by
  simp only [chunksMeasure, List.map_append, List.sum_append, List.length_append]
  ring

theorem chunksMeasure_cons_lt (c : Chunk) (cs : List Chunk) :
    chunksMeasure cs < chunksMeasure (c :: cs) := by
  simp only [chunksMeasure, List.map_cons, List.sum_cons, List.length_cons]
  omega

theorem handleLong_rest_measure (width curLen : ℕ) (curLine rest : List Chunk) :
    chunksMeasure (handleLong width curLen curLine rest).2 ≤ chunksMeasure rest := by
  cases rest with
  | nil => exact le_rfl
  | cons c cs =>
    by_cases hs : width < c.length
    · rw [handleLong, if_pos hs]
      show chunksMeasure (c.drop (if width < 1 then 1 else width - curLen) :: cs)
        ≤ chunksMeasure (c :: cs)
      have hlen : (c.drop (if width < 1 then 1 else width - curLen)).length ≤ c.length := by
        rw [List.length_drop]
        exact Nat.sub_le _ _
      simp only [chunksMeasure, List.map_cons, List.sum_cons, List.length_cons]
      omega
    · rw [handleLong, if_neg hs]

/-! ### Text wrapping: one loop iteration -/

theorem wrapStep_snd (width : ℕ) (hasLines : Bool) (chunks : List Chunk) :
    (wrapStep width hasLines chunks).2
      = (handleLong width (greedyTake width 0 (dropLeadingWs hasLines chunks)).2.1
          (greedyTake width 0 (dropLeadingWs hasLines chunks)).1
          (greedyTake width 0 (dropLeadingWs hasLines chunks)).2.2).2 := rfl

theorem wrapStep_fst (width : ℕ) (hasLines : Bool) (chunks : List Chunk) :
    (wrapStep width hasLines chunks).1
      = (if (dropTrailingWs (handleLong width
            (greedyTake width 0 (dropLeadingWs hasLines chunks)).2.1
            (greedyTake width 0 (dropLeadingWs hasLines chunks)).1
            (greedyTake width 0 (dropLeadingWs hasLines chunks)).2.2).1).isEmpty
         then none
         else some (dropTrailingWs (handleLong width
            (greedyTake width 0 (dropLeadingWs hasLines chunks)).2.1
            (greedyTake width 0 (dropLeadingWs hasLines chunks)).1
            (greedyTake width 0 (dropLeadingWs hasLines chunks)).2.2).1).flatten) := rfl

theorem wsChunk_eq_false (c : Chunk) (x : Char) (hx : x ∈ c) (hne : x ≠ ' ') :
    wsChunk c = false := by
  rw [Bool.eq_false_iff]
  intro hall
  rw [wsChunk, List.all_eq_true] at hall
  exact hne (by simpa using hall x hx)

theorem wsChunk_all (c : Chunk) (h : wsChunk c = true) : ∀ x ∈ c, x = ' ' := by
  intro x hx
  rw [wsChunk, List.all_eq_true] at h
  simpa using h x hx

theorem wsChunk_drop_false (c : Chunk) (n : ℕ) (hc : wsChunk c = false)
    (htake : wsChunk (c.take n) = true) : wsChunk (c.drop n) = false := by
  by_contra hcon
  have hdrop : wsChunk (c.drop n) = true := by
    cases h : wsChunk (c.drop n) with
    | true => rfl
    | false => exact absurd h hcon
  have : wsChunk c = true := by
    rw [← List.take_append_drop n c, wsChunk, List.all_append]
    rw [wsChunk] at htake hdrop
    rw [htake, hdrop]
    rfl
  rw [this] at hc
  simp at hc

theorem wrapStep_measure_lt (width : ℕ) (hasLines : Bool) (c : Chunk) (cs : List Chunk) :
    chunksMeasure (wrapStep width hasLines (c :: cs)).2 < chunksMeasure (c :: cs) := by
  rw [wrapStep_snd]
  by_cases hd : (hasLines && wsChunk c) = true
  · have h1 : dropLeadingWs hasLines (c :: cs) = cs := by rw [dropLeadingWs, if_pos hd]
    rw [h1]
    have h2 : chunksMeasure (greedyTake width 0 cs).2.2 ≤ chunksMeasure cs := by
      have happ := greedyTake_append width cs 0
      calc chunksMeasure (greedyTake width 0 cs).2.2
          ≤ chunksMeasure ((greedyTake width 0 cs).1 ++ (greedyTake width 0 cs).2.2) := by
            rw [chunksMeasure_append]
            omega
        _ = chunksMeasure cs := by rw [happ]
    exact lt_of_le_of_lt (le_trans (handleLong_rest_measure _ _ _ _) h2)
      (chunksMeasure_cons_lt c cs)
  · have h1 : dropLeadingWs hasLines (c :: cs) = c :: cs := by rw [dropLeadingWs, if_neg hd]
    rw [h1]
    rcases htk : (greedyTake width 0 (c :: cs)).1 with _ | ⟨t, ts⟩
    · have hrest := (greedyTake_nil_rest width 0 (c :: cs) htk).1
      have hlen0 := (greedyTake_nil_rest width 0 (c :: cs) htk).2
      have hhead := greedyTake_nil_head width 0 c cs htk
      rw [hrest, hlen0]
      rw [handleLong, if_pos (by omega)]
      show chunksMeasure (c.drop (if width < 1 then 1 else width - 0) :: cs)
        < chunksMeasure (c :: cs)
      have hs1 : 1 ≤ (if width < 1 then 1 else width - 0) := by split_ifs <;> omega
      have hdrop : (c.drop (if width < 1 then 1 else width - 0)).length < c.length := by
        rw [List.length_drop]
        omega
      simp only [chunksMeasure, List.map_cons, List.sum_cons, List.length_cons]
      omega
    · have happ := greedyTake_append width (c :: cs) 0
      rw [htk] at happ
      have hm : chunksMeasure (greedyTake width 0 (c :: cs)).2.2 < chunksMeasure (c :: cs) := by
        have hm2 : chunksMeasure (t :: ts)
            + chunksMeasure ((greedyTake width 0 (c :: cs)).2.2)
            = chunksMeasure (c :: cs) := by
          rw [← chunksMeasure_append, happ]
        have h3 : 1 ≤ chunksMeasure (t :: ts) := by
          simp only [chunksMeasure, List.length_cons]
          omega
        omega
      exact lt_of_le_of_lt (handleLong_rest_measure _ _ _ _) hm

theorem handleLong_line_sum (width curLen : ℕ) (curLine rest : List Chunk)
    (hsum : (curLine.map List.length).sum = curLen) (hle : curLen ≤ width)
    (hw : 1 ≤ width) :
    (((handleLong width curLen curLine rest).1).map List.length).sum ≤ width := by
  cases rest with
  | nil =>
    show (curLine.map List.length).sum ≤ width
    omega
  | cons c cs =>
    by_cases hs : width < c.length
    · rw [handleLong, if_pos hs]
      show ((curLine ++ [c.take (if width < 1 then 1 else width - curLen)]).map
        List.length).sum ≤ width
      rw [List.map_append, List.sum_append]
      simp only [List.map_cons, List.map_nil, List.sum_cons, List.sum_nil]
      rw [List.length_take]
      rw [if_neg (by omega : ¬width < 1)]
      omega
    · rw [handleLong, if_neg hs]
      show (curLine.map List.length).sum ≤ width
      omega

theorem wrapStep_line_le (width : ℕ) (hw : 1 ≤ width) (hasLines : Bool)
    (chunks : List Chunk) (l : List Char)
    (h : (wrapStep width hasLines chunks).1 = some l) : l.length ≤ width := by
  rw [wrapStep_fst] at h
  rcases hg : greedyTake width 0 (dropLeadingWs hasLines chunks) with ⟨taken, curLen, rest⟩
  rw [hg] at h
  have hsum : (taken.map List.length).sum = curLen := by
    have h1 := greedyTake_len width (dropLeadingWs hasLines chunks) 0
    rw [hg] at h1
    simpa using h1.symm
  have hle : curLen ≤ width := by
    have h1 := greedyTake_le width (dropLeadingWs hasLines chunks) 0 (by omega)
    rw [hg] at h1
    simpa using h1
  by_cases hemp : (dropTrailingWs (handleLong width curLen taken rest).1).isEmpty = true
  · rw [if_pos hemp] at h
    simp at h
  · rw [if_neg hemp] at h
    have hl' : (dropTrailingWs (handleLong width curLen taken rest).1).flatten = l := by
      injection h
    rw [← hl', List.length_flatten]
    exact le_trans (dropTrailingWs_sum_le _)
      (handleLong_line_sum width curLen taken rest hsum hle hw)

theorem wrapCore_none_preserves (width : ℕ) (_hw : 1 ≤ width) (chunks1 : List Chunk)
    (taken rest : List Chunk) (curLen : ℕ)
    (hg : greedyTake width 0 chunks1 = (taken, curLen, rest))
    (x : Chunk) (hx1 : x ∈ chunks1) (hxw : wsChunk x = false)
    (hempty : dropTrailingWs (handleLong width curLen taken rest).1 = []) :
    ∃ y ∈ (handleLong width curLen taken rest).2, wsChunk y = false := by
  have happ : taken ++ rest = chunks1 := by
    have h1 := greedyTake_append width chunks1 0
    rw [hg] at h1
    simpa using h1
  cases rest with
  | nil =>
    have hline : dropTrailingWs taken = [] := hempty
    rcases dropTrailingWs_eq_nil taken hline with h1 | ⟨w, hw1, hww⟩
    · rw [h1] at happ
      simp at happ
      subst happ
      simp at hx1
    · rw [hw1] at happ
      simp at happ
      subst happ
      have hxwEq : x = w := by simpa using hx1
      rw [hxwEq, hww] at hxw
      simp at hxw
  | cons r0 rs =>
    by_cases hs : width < r0.length
    · rw [handleLong, if_pos hs] at hempty ⊢
      have hempty2 : dropTrailingWs
          (taken ++ [r0.take (if width < 1 then 1 else width - curLen)]) = [] := hempty
      show ∃ y ∈ r0.drop (if width < 1 then 1 else width - curLen) :: rs,
        wsChunk y = false
      rcases dropTrailingWs_eq_nil _ hempty2 with h1 | ⟨w, hw1, hww⟩
      · exact absurd h1 (by simp)
      · have htk : taken = [] ∧ r0.take (if width < 1 then 1 else width - curLen) = w := by
          cases taken with
          | nil => exact ⟨rfl, by simpa using hw1⟩
          | cons t ts => simp at hw1
        obtain ⟨htk0, hfrag⟩ := htk
        rw [htk0] at happ
        simp at happ
        rw [← happ] at hx1
        rcases List.mem_cons.mp hx1 with rfl | hxrs
        · refine ⟨x.drop (if width < 1 then 1 else width - curLen),
            List.mem_cons_self _ _, ?_⟩
          apply wsChunk_drop_false x _ hxw
          rw [hfrag]
          exact hww
        · exact ⟨x, List.mem_cons_of_mem _ hxrs, hxw⟩
    · rw [handleLong, if_neg hs] at hempty ⊢
      have hempty2 : dropTrailingWs taken = [] := hempty
      show ∃ y ∈ r0 :: rs, wsChunk y = false
      rcases dropTrailingWs_eq_nil taken hempty2 with h1 | ⟨w, hw1, hww⟩
      · rw [h1] at happ hg
        simp at happ
        rw [← happ] at hg
        have := greedyTake_nil_head width 0 r0 rs (by rw [hg])
        omega
      · rw [hw1] at happ
        rw [← happ] at hx1
        rcases List.mem_cons.mp hx1 with rfl | hxr
        · rw [hww] at hxw
          simp at hxw
        · exact ⟨x, hxr, hxw⟩

theorem wrapStep_none_preserves (width : ℕ) (hw : 1 ≤ width) (hasLines : Bool)
    (chunks : List Chunk) (x : Chunk) (hx : x ∈ chunks) (hxw : wsChunk x = false)
    (hnone : (wrapStep width hasLines chunks).1 = none) :
    ∃ y ∈ (wrapStep width hasLines chunks).2, wsChunk y = false := by
  have hx1 := dropLeadingWs_mem hasLines chunks x hx hxw
  rw [wrapStep_fst] at hnone
  rw [wrapStep_snd]
  rcases hg : greedyTake width 0 (dropLeadingWs hasLines chunks) with ⟨taken, curLen, rest⟩
  rw [hg] at hnone
  by_cases hemp : (dropTrailingWs (handleLong width curLen taken rest).1).isEmpty = true
  · have hempty2 : dropTrailingWs (handleLong width curLen taken rest).1 = [] :=
      List.isEmpty_iff.mp hemp
    show ∃ y ∈ (handleLong width curLen taken rest).2, wsChunk y = false
    exact wrapCore_none_preserves width hw (dropLeadingWs hasLines chunks)
      taken rest curLen hg x hx1 hxw hempty2
  · rw [if_neg hemp] at hnone
    simp at hnone

theorem wrapAux_cons (width fuel : ℕ) (hasLines : Bool) (c : Chunk) (cs : List Chunk) :
    wrapAux width (fuel + 1) hasLines (c :: cs)
      = match wrapStep width hasLines (c :: cs) with
        | (none, rest) => wrapAux width fuel hasLines rest
        | (some l, rest) => l :: wrapAux width fuel true rest := by
  rw [wrapAux]

theorem wrapAux_line_le (width : ℕ) (hw : 1 ≤ width) :
    ∀ (fuel : ℕ) (hasLines : Bool) (chunks : List Chunk) (line : List Char),
      line ∈ wrapAux width fuel hasLines chunks → line.length ≤ width := by
  intro fuel
  induction fuel with
  | zero =>
    intro hasLines chunks line h
    simp [wrapAux] at h
  | succ n ih =>
    intro hasLines chunks line h
    cases chunks with
    | nil => simp [wrapAux] at h
    | cons c cs =>
      rw [wrapAux_cons] at h
      rcases hs : wrapStep width hasLines (c :: cs) with ⟨lineOpt, rest⟩
      rw [hs] at h
      cases lineOpt with
      | none => exact ih hasLines rest line h
      | some l =>
        rcases List.mem_cons.mp h with rfl | hmem
        · exact wrapStep_line_le width hw hasLines (c :: cs) line (by rw [hs])
        · exact ih true rest line hmem

theorem wrapAux_ne_nil (width : ℕ) (hw : 1 ≤ width) :
    ∀ (fuel : ℕ) (hasLines : Bool) (chunks : List Chunk),
      chunksMeasure chunks ≤ fuel → (∃ x ∈ chunks, wsChunk x = false) →
      wrapAux width fuel hasLines chunks ≠ [] := by
  intro fuel
  induction fuel with
  | zero =>
    intro hasLines chunks hm hex
    obtain ⟨x, hxmem, hxw⟩ := hex
    cases chunks with
    | nil => simp at hxmem
    | cons c cs =>
      have := chunksMeasure_cons_lt c cs
      omega
  | succ n ih =>
    intro hasLines chunks hm hex
    obtain ⟨x, hxmem, hxw⟩ := hex
    cases chunks with
    | nil => simp at hxmem
    | cons c cs =>
      rw [wrapAux_cons]
      rcases hs : wrapStep width hasLines (c :: cs) with ⟨lineOpt, rest⟩
      have hmlt : chunksMeasure rest < chunksMeasure (c :: cs) := by
        have h1 := wrapStep_measure_lt width hasLines c cs
        rw [hs] at h1
        exact h1
      cases lineOpt with
      | some l => simp
      | none =>
        have hpres := wrapStep_none_preserves width hw hasLines (c :: cs) x hxmem hxw
          (by rw [hs])
        rw [hs] at hpres
        exact ih hasLines rest (by omega) hpres

theorem wsChunk_true_of_all (c : Chunk) (h : ∀ a ∈ c, a = ' ') : wsChunk c = true := by
  rw [wsChunk, List.all_eq_true]
  intro a ha
  simpa using h a ha

/-- The first loop iteration on the chunks of a text whose first and last
chunks are non-whitespace and whose total mass exceeds the width: the
built line survives the trailing-whitespace drop, and the remaining
chunks still contain a non-whitespace chunk. -/
theorem wrapFirst_core (width : ℕ) (hw : 1 ≤ width) (c0 : Chunk) (cs0 : List Chunk)
    (taken rest : List Chunk) (curLen : ℕ)
    (hg : greedyTake width 0 (c0 :: cs0) = (taken, curLen, rest))
    (hfw : wsChunk c0 = false)
    (hhomog : ∀ chk ∈ c0 :: cs0, (∀ a ∈ chk, a = ' ') ∨ (∀ a ∈ chk, a ≠ ' '))
    (chs : List Chunk) (lastC : Chunk)
    (hlastdecomp : c0 :: cs0 = chs ++ [lastC])
    (hlw : wsChunk lastC = false)
    (hbig : width < ((c0 :: cs0).map List.length).sum) :
    dropTrailingWs (handleLong width curLen taken rest).1 ≠ [] ∧
    (∃ y ∈ (handleLong width curLen taken rest).2, wsChunk y = false) := by
  have happ : taken ++ rest = c0 :: cs0 := by
    have h1 := greedyTake_append width (c0 :: cs0) 0
    rw [hg] at h1
    simpa using h1
  have hcur : curLen = (taken.map List.length).sum := by
    have h1 := greedyTake_len width (c0 :: cs0) 0
    rw [hg] at h1
    simpa using h1
  have hle : curLen ≤ width := by
    have h1 := greedyTake_le width (c0 :: cs0) 0 (by omega)
    rw [hg] at h1
    simpa using h1
  have hrest_ne : rest ≠ [] := by
    intro hnil
    rw [hnil, List.append_nil] at happ
    rw [happ] at hcur
    omega
  have hallne : ∀ chk ∈ c0 :: cs0, wsChunk chk = false → ∀ a ∈ chk, a ≠ ' ' := by
    intro chk hchk hchkw
    rcases hhomog chk hchk with hsp | hnsp
    · exfalso
      rw [wsChunk_true_of_all chk hsp] at hchkw
      simp at hchkw
    · exact hnsp
  obtain ⟨r0, rs, hr⟩ : ∃ r0 rs, rest = r0 :: rs := by
    cases rest with
    | nil => exact absurd rfl hrest_ne
    | cons a b => exact ⟨a, b, rfl⟩
  subst hr
  have hlastrest : (r0 :: rs).getLast? = some lastC := by
    have h1 : (taken ++ r0 :: rs).getLast? = (r0 :: rs).getLast? :=
      List.getLast?_append_of_ne_nil taken (by simp)
    rw [happ, hlastdecomp, List.getLast?_concat] at h1
    exact h1.symm
  have hr0mem : r0 ∈ c0 :: cs0 := by
    rw [← happ]
    exact List.mem_append_right taken (List.mem_cons_self _ _)
  cases taken with
  | nil =>
    have hcur0 : curLen = 0 := by simpa using hcur
    have hchEq : r0 = c0 ∧ rs = cs0 := by simpa using happ
    obtain ⟨he1, he2⟩ := hchEq
    subst he1
    subst he2
    have hbigc0 : width < r0.length := by
      have h1 := greedyTake_nil_head width 0 r0 rs (by rw [hg])
      omega
    have hif : (if width < 1 then 1 else width - curLen) = width := by
      rw [hcur0, if_neg (by omega : ¬width < 1)]
      omega
    have hhl : handleLong width curLen [] (r0 :: rs)
        = ([r0.take width], r0.drop width :: rs) := by
      rw [handleLong, if_pos hbigc0, hif]
      simp
    rw [hhl]
    have hc0ne := hallne r0 (List.mem_cons_self _ _) hfw
    have htake_ne : r0.take width ≠ [] := by
      have hlen1 : (r0.take width).length = width := by
        rw [List.length_take]
        omega
      intro hcon
      rw [hcon] at hlen1
      simp at hlen1
      omega
    have hdrop_ne : r0.drop width ≠ [] := by
      have hlen1 : (r0.drop width).length = r0.length - width := List.length_drop _ _
      intro hcon
      rw [hcon, List.length_nil] at hlen1
      omega
    obtain ⟨xt, hxt⟩ := List.exists_mem_of_ne_nil _ htake_ne
    obtain ⟨xd, hxd⟩ := List.exists_mem_of_ne_nil _ hdrop_ne
    have htw : wsChunk (r0.take width) = false :=
      wsChunk_eq_false _ xt hxt (hc0ne xt (List.mem_of_mem_take hxt))
    have hdw : wsChunk (r0.drop width) = false :=
      wsChunk_eq_false _ xd hxd (hc0ne xd (List.mem_of_mem_drop hxd))
    constructor
    · show dropTrailingWs [r0.take width] ≠ []
      rw [dropTrailingWs, if_neg (by simp [htw])]
      simp
    · show ∃ y ∈ r0.drop width :: rs, wsChunk y = false
      exact ⟨r0.drop width, List.mem_cons_self _ _, hdw⟩
  | cons t0' ts' =>
    have ht0 : t0' = c0 := by
      have h1 : t0' :: (ts' ++ r0 :: rs) = c0 :: cs0 := by simpa using happ
      exact ((List.cons.injEq _ _ _ _).mp h1).1
    subst ht0
    by_cases hsplit : width < r0.length
    · rw [handleLong, if_pos hsplit]
      constructor
      · show dropTrailingWs
          ((t0' :: ts') ++ [r0.take (if width < 1 then 1 else width - curLen)]) ≠ []
        intro hcon
        have hmem : t0' ∈ dropTrailingWs
            ((t0' :: ts') ++ [r0.take (if width < 1 then 1 else width - curLen)]) :=
          dropTrailingWs_mem _ t0' (by simp) hfw
        rw [hcon] at hmem
        simp at hmem
      · show ∃ y ∈ r0.drop (if width < 1 then 1 else width - curLen) :: rs,
          wsChunk y = false
        cases rs with
        | nil =>
          have hlr : r0 = lastC := by simpa using hlastrest
          have hr0w : wsChunk r0 = false := by rw [hlr]; exact hlw
          have hr0ne := hallne r0 hr0mem hr0w
          have hsle : (if width < 1 then 1 else width - curLen) ≤ width := by
            split_ifs <;> omega
          have hdrop_ne : r0.drop (if width < 1 then 1 else width - curLen) ≠ [] := by
            have hlen1 : (r0.drop (if width < 1 then 1 else width - curLen)).length
                = r0.length - (if width < 1 then 1 else width - curLen) :=
              List.length_drop _ _
            intro hcon
            rw [hcon, List.length_nil] at hlen1
            omega
          obtain ⟨xd, hxd⟩ := List.exists_mem_of_ne_nil _ hdrop_ne
          exact ⟨_, List.mem_cons_self _ _,
            wsChunk_eq_false _ xd hxd (hr0ne xd (List.mem_of_mem_drop hxd))⟩
        | cons rr rrs =>
          have hlmem : lastC ∈ rr :: rrs := by
            rw [List.getLast?_cons_cons] at hlastrest
            exact List.mem_of_mem_getLast? hlastrest
          exact ⟨lastC, List.mem_cons_of_mem _ hlmem, hlw⟩
    · rw [handleLong, if_neg hsplit]
      constructor
      · show dropTrailingWs (t0' :: ts') ≠ []
        intro hcon
        have hmem : t0' ∈ dropTrailingWs (t0' :: ts') :=
          dropTrailingWs_mem _ t0' (by simp) hfw
        rw [hcon] at hmem
        simp at hmem
      · show ∃ y ∈ r0 :: rs, wsChunk y = false
        exact ⟨lastC, List.mem_of_mem_getLast? hlastrest, hlw⟩

/-- `textwrap.wrap` produces at least two lines when the text is longer
than the width and neither starts nor ends with whitespace. -/
theorem pyWrap_ge_two (width : ℕ) (text : List Char) (ch cl : Char)
    (hw : 1 ≤ width) (hlen : width < text.length)
    (hhead : text.head? = some ch) (hch : pySpace ch = false)
    (hlast : text.getLast? = some cl) (hcl : pySpace cl = false) :
    2 ≤ (pyWrap width text).length := by
  have hchs : ch ≠ ' ' := by
    intro hEq
    rw [hEq] at hch
    simp [pySpace] at hch
  have hcls : cl ≠ ' ' := by
    intro hEq
    rw [hEq] at hcl
    simp [pySpace] at hcl
  have hlen' : (replaceWhitespace text).length = text.length := by
    rw [replaceWhitespace, List.length_map]
  have hhead' : (replaceWhitespace text).head? = some ch := by
    rw [replaceWhitespace, List.head?_map, hhead]
    simp [hch]
  have hlast' : (replaceWhitespace text).getLast? = some cl := by
    rw [replaceWhitespace, List.getLast?_map, hlast]
    simp [hcl]
  obtain ⟨tl, htl⟩ : ∃ tl, replaceWhitespace text = ch :: tl := by
    rcases hcase : replaceWhitespace text with _ | ⟨a, l⟩
    · rw [hcase] at hhead'
      simp at hhead'
    · rw [hcase] at hhead'
      simp at hhead'
      exact ⟨l, by rw [hhead']⟩
  obtain ⟨t0, rest0, hsc⟩ := splitChunks_cons ch tl
  have hhomog : ∀ chk ∈ (ch :: t0) :: rest0,
      (∀ a ∈ chk, a = ' ') ∨ (∀ a ∈ chk, a ≠ ' ') := by
    rw [← hsc]
    exact splitChunks_homog (ch :: tl)
  have hfw : wsChunk (ch :: t0) = false :=
    wsChunk_eq_false _ ch (List.mem_cons_self _ _) hchs
  obtain ⟨chs, lastC, hchs2, hclmem⟩ :=
    splitChunks_getLast (ch :: tl) cl (by rw [← htl]; exact hlast')
  have hlastdecomp : (ch :: t0) :: rest0 = chs ++ [lastC] := by
    rw [← hsc, hchs2]
  have hlw : wsChunk lastC = false := wsChunk_eq_false _ cl hclmem hcls
  have hbig : width < (((ch :: t0) :: rest0).map List.length).sum := by
    rw [← hsc, ← List.length_flatten, splitChunks_flatten]
    have hl2 : (ch :: tl).length = text.length := by rw [← htl, hlen']
    omega
  rw [pyWrap, htl, hsc]
  obtain ⟨f, hf⟩ : ∃ f, chunksMeasure ((ch :: t0) :: rest0) = f + 1 := by
    refine ⟨chunksMeasure ((ch :: t0) :: rest0) - 1, ?_⟩
    have := chunksMeasure_cons_lt (ch :: t0) rest0
    omega
  rw [hf, wrapAux_cons]
  rcases hg : greedyTake width 0 ((ch :: t0) :: rest0) with ⟨taken, curLen, rest⟩
  have hcore := wrapFirst_core width hw (ch :: t0) rest0 taken rest curLen hg hfw hhomog
    chs lastC hlastdecomp hlw hbig
  have hA : ∃ l, (wrapStep width false ((ch :: t0) :: rest0)).1 = some l := by
    rw [wrapStep_fst, dropLeadingWs_false, hg]
    by_cases hemp : (dropTrailingWs (handleLong width curLen taken rest).1).isEmpty = true
    · exact absurd (List.isEmpty_iff.mp hemp) hcore.1
    · rw [if_neg hemp]
      exact ⟨_, rfl⟩
  have hB : ∃ y ∈ (wrapStep width false ((ch :: t0) :: rest0)).2, wsChunk y = false := by
    rw [wrapStep_snd, dropLeadingWs_false, hg]
    show ∃ y ∈ (handleLong width curLen taken rest).2, wsChunk y = false
    exact hcore.2
  obtain ⟨l, hl⟩ := hA
  have hstep : wrapStep width false ((ch :: t0) :: rest0)
      = (some l, (wrapStep width false ((ch :: t0) :: rest0)).2) := by
    rw [← hl]
  rw [hstep]
  show 2 ≤ (l :: wrapAux width f true (wrapStep width false ((ch :: t0) :: rest0)).2).length
  rw [List.length_cons]
  have hmW : chunksMeasure (wrapStep width false ((ch :: t0) :: rest0)).2 ≤ f := by
    have h1 := wrapStep_measure_lt width false (ch :: t0) rest0
    omega
  have hne := wrapAux_ne_nil width hw f true
    (wrapStep width false ((ch :: t0) :: rest0)).2 hmW hB
  have hpos : 0 < (wrapAux width f true
      (wrapStep width false ((ch :: t0) :: rest0)).2).length :=
    List.length_pos.mpr hne
  omega

/-- C6 (amended): the per-line budget is `max(1, maxWidthPx / (0.5 *
fontSizePx))` (with the division truncated, as `int()` does); a string
whose length does not exceed the budget is passed through unchanged; a
string whose length exceeds it is greedily word-wrapped with no line
exceeding the budget, and the output has at least 2 lines provided the
string neither starts nor ends with whitespace (leading or trailing
whitespace may be dropped by the wrapper, leaving a single line); in all
cases a trailing line-break is appended. -/
theorem wrap_text_behavior :
    (∀ widthPx fontsize : ℕ,
      maxCharsPerLine widthPx fontsize = max 1 (2 * widthPx / fontsize)) ∧
    (∀ (text : List Char) (widthPx fontsize : ℕ),
      text.length ≤ maxCharsPerLine widthPx fontsize →
      wrappedTextOf text widthPx fontsize = text ++ ['\n']) ∧
    (∀ (text : List Char) (widthPx fontsize : ℕ),
      maxCharsPerLine widthPx fontsize < text.length →
      wrappedTextOf text widthPx fontsize
        = List.intercalate ['\n']
            (pyWrap (maxCharsPerLine widthPx fontsize) text) ++ ['\n']) ∧
    (∀ (text : List Char) (width : ℕ), 1 ≤ width →
      ∀ line ∈ pyWrap width text, line.length ≤ width) ∧
    (∀ (text : List Char) (widthPx fontsize : ℕ) (ch cl : Char),
      maxCharsPerLine widthPx fontsize < text.length →
      text.head? = some ch → pySpace ch = false →
      text.getLast? = some cl → pySpace cl = false →
      2 ≤ (pyWrap (maxCharsPerLine widthPx fontsize) text).length) := by
  refine ⟨fun w f => rfl, ?_, ?_, ?_, ?_⟩
  · intro text w f h
    rw [wrappedTextOf, if_neg (by omega)]
  · intro text w f h
    rw [wrappedTextOf, if_pos h, pyFill]
  · intro text width hw line hmem
    exact wrapAux_line_le width hw _ _ _ line hmem
  · intro text w f ch cl hlen hhead hch hlast hcl
    exact pyWrap_ge_two _ text ch cl (le_max_left 1 _) hlen hhead hch hlast hcl

/-- Counterexample for C6 as stated: the three-character text `"ab "`
with budget 2 (maxWidthPx 10, fontSizePx 10) exceeds the budget, yet the
wrap produces a single line (`textwrap` drops the trailing whitespace
chunk), refuting the claimed "at least 2 lines". -/
theorem wrap_text_counterexample :
    maxCharsPerLine 10 10 = 2 ∧
    maxCharsPerLine 10 10 < (['a', 'b', ' '] : List Char).length ∧
    (pyWrap (maxCharsPerLine 10 10) ['a', 'b', ' ']).length = 1 := by
  refine ⟨rfl, by decide, by decide⟩

/-- Witness for C6 (amended): a short text passes through with only the
line-break appended, and a budget-exceeding text with no surrounding
whitespace wraps to at least two lines. -/
theorem wrap_text_behavior_witness :
    wrappedTextOf ['h', 'i'] 10 10 = ['h', 'i', '\n'] ∧
    2 ≤ (pyWrap (maxCharsPerLine 10 10) ['a', 'b', 'c']).length := by
  constructor
  · exact wrap_text_behavior.2.1 ['h', 'i'] 10 10 (by decide)
  · exact wrap_text_behavior.2.2.2.2 ['a', 'b', 'c'] 10 10 'a' 'c' (by decide) (by decide)
      (by decide) (by decide) (by decide)

end VideoEditor
